import Mathlib

/-!
Shallow embedding of the formula extraction and normalization pipeline of the
Mathematical-Formula-Embeddings-and-RAG repository, together with proofs of the
frozen claims about it.

Strings are modelled as `List Char` internally (with `String` wrappers at the
claim level).  Each regex substitution pass of `src/rag_system/latex_normalizer.py`
is embedded as an executable left-to-right scanner that mirrors Python
`re.sub` semantics (leftmost, non-overlapping matches, greedy quantifiers with
the backtracking behaviour the concrete pattern exhibits).
-/

namespace RagFormulas

/-! ## Character classes (ASCII scope of the source's regexes) -/

/-- Python `\s` (ASCII range), also the set used by `str.strip()`. -/
def isWS (c : Char) : Bool :=
  c == ' ' || c == '\t' || c == '\n' || c == '\r' || c == '\x0b' || c == '\x0c'

/-- Python `\w` for the word boundaries `\b` in the source patterns. -/
def isWordC (c : Char) : Bool :=
  c.isAlphanum || c == '_'

/-- Python `str.strip()`: drop whitespace at both ends. -/
def trimWS (s : List Char) : List Char :=
  ((s.dropWhile isWS).reverse.dropWhile isWS).reverse

/-- Python `str.strip("$")`: drop dollar signs at both ends. -/
def trimDollar (s : List Char) : List Char :=
  ((s.dropWhile (fun c => c == '$')).reverse.dropWhile (fun c => c == '$')).reverse

/-- Python `pat in s` substring test (`"" in s` is `True`). -/
def occursB (pat : List Char) : List Char → Bool
  | [] => pat.isEmpty
  | c :: t => pat.isPrefixOf (c :: t) || occursB pat t

/-- Python `s.replace(pat, rep)` (for nonempty `pat`): leftmost,
non-overlapping replacement, scanning the original string.  The fuel is the
length of the string; every step consumes at least one character. -/
def pyReplaceAux : Nat → List Char → List Char → List Char → List Char
  | 0, s, _, _ => s
  | fuel + 1, s, pat, rep =>
    match s with
    | [] => []
    | c :: rest =>
      if pat ≠ [] ∧ pat.isPrefixOf (c :: rest) then
        rep ++ pyReplaceAux fuel ((c :: rest).drop pat.length) pat rep
      else
        c :: pyReplaceAux fuel rest pat rep

def pyReplace (s pat rep : List Char) : List Char :=
  pyReplaceAux s.length s pat rep

/-! ## `normalize_latex` pipeline, from `src/rag_system/latex_normalizer.py` -/

/-- `re.sub(r'^\$\$?|\$\$?$', '', s)`: the anchored alternation removes one
greedy `$`/`$$` match at the start and one at the remaining end. -/
def stripDollarDelims (s : List Char) : List Char :=
  let t := if s.take 2 = ['$', '$'] then s.drop 2
           else if s.take 1 = ['$'] then s.drop 1 else s
  let r := t.reverse
  let r2 := if r.take 2 = ['$', '$'] then r.drop 2
            else if r.take 1 = ['$'] then r.drop 1 else r
  r2.reverse

/-- `re.sub(r'\s+', ' ', s)`: collapse every whitespace run to one space. -/
def collapseWSAux : Bool → List Char → List Char
  | _, [] => []
  | prevWS, c :: rest =>
    if isWS c then
      if prevWS then collapseWSAux true rest
      else ' ' :: collapseWSAux true rest
    else c :: collapseWSAux false rest

def collapseWS (s : List Char) : List Char := collapseWSAux false s

/-- Lookbehind `(?<![\\a-zA-Z])` of the single-character fraction pattern. -/
def fracPrevOk : Option Char → Bool
  | none => true
  | some p => !(p == '\\' || p.isAlpha)

/-- Lookahead `(?![a-zA-Z])` of the single-character fraction pattern. -/
def fracAfterOk : List Char → Bool
  | [] => true
  | d :: _ => !d.isAlpha

/-- `re.sub(r'(?<![\\a-zA-Z])([a-zA-Z0-9])/([a-zA-Z0-9])(?![a-zA-Z])',
r'\\frac{\1}{\2}', s)`.  `prev` is the character before the scan position in
the original string. -/
def fracSingleAux : Nat → Option Char → List Char → List Char
  | 0, _, s => s
  | fuel + 1, prev, s =>
    match s with
    | [] => []
    | c1 :: rest =>
      match rest with
      | '/' :: c2 :: rest2 =>
        if c1.isAlphanum && c2.isAlphanum && fracPrevOk prev && fracAfterOk rest2 then
          '\\' :: 'f' :: 'r' :: 'a' :: 'c' :: '\x7b' :: c1 :: '\x7d' :: '\x7b' :: c2 :: '\x7d' ::
            fracSingleAux fuel (some c2) rest2
        else c1 :: fracSingleAux fuel (some c1) rest
      | _ => c1 :: fracSingleAux fuel (some c1) rest

/-- `re.sub(r'\(([^()]+)\)/\(([^()]+)\)', r'\\frac{\1}{\2}', s)`. -/
def fracParenAux : Nat → List Char → List Char
  | 0, s => s
  | fuel + 1, s =>
    match s with
    | [] => []
    | c :: rest =>
      if c = '(' then
        let r1 := rest.takeWhile (fun d => !(d == '(' || d == ')'))
        let t1 := rest.drop r1.length
        match t1 with
        | ')' :: '/' :: '(' :: t2 =>
          let r2 := t2.takeWhile (fun d => !(d == '(' || d == ')'))
          let t3 := t2.drop r2.length
          if r1 ≠ [] ∧ r2 ≠ [] ∧ t3.head? = some ')' then
            '\\' :: 'f' :: 'r' :: 'a' :: 'c' :: '\x7b' ::
              (r1 ++ '\x7d' :: '\x7b' :: (r2 ++ '\x7d' :: fracParenAux fuel (t3.drop 1)))
          else c :: fracParenAux fuel rest
        | _ => c :: fracParenAux fuel rest
      else c :: fracParenAux fuel rest

/-- `_normalize_fractions`: single-character pass, then parenthesized pass. -/
def normalizeFractions (s : List Char) : List Char :=
  let r := fracSingleAux s.length none s
  fracParenAux r.length r

/-- One `re.sub(r'(?<!\\)\bname\b', repl, s)` pass (`useLB`: with the
`(?<!\\)` lookbehind; the `infinity` rule of the operators pass omits it). -/
def replaceWordAux (useLB : Bool) (name repl : List Char) :
    Nat → Option Char → List Char → List Char
  | 0, _, s => s
  | fuel + 1, prev, s =>
    match s with
    | [] => []
    | c :: rest =>
      let prevOk := match prev with
        | none => true
        | some p => !(isWordC p) && (!useLB || p != '\\')
      let afterOk := match (c :: rest).drop name.length with
        | [] => true
        | d :: _ => !(isWordC d)
      if prevOk && name.isPrefixOf (c :: rest) && afterOk then
        repl ++ replaceWordAux useLB name repl fuel name.getLast? ((c :: rest).drop name.length)
      else c :: replaceWordAux useLB name repl fuel (some c) rest

def replaceWord (useLB : Bool) (name repl s : List Char) : List Char :=
  replaceWordAux useLB name repl s.length none s

/-- The function-name list of `_normalize_functions`, in source order. -/
def mathFunctions : List String :=
  ["sin", "cos", "tan", "cot", "sec", "csc",
   "sinh", "cosh", "tanh", "coth",
   "arcsin", "arccos", "arctan",
   "asin", "acos", "atan",
   "log", "ln", "exp", "lg",
   "lim", "max", "min", "sup", "inf",
   "det", "dim", "ker", "deg",
   "gcd", "lcm", "mod",
   "arg", "sgn", "abs"]

/-- `_normalize_functions`: escape each function name unless already escaped. -/
def normalizeFunctions (s : List Char) : List Char :=
  mathFunctions.foldl (fun acc f => replaceWord true f.data ('\\' :: f.data) acc) s

/-- `_normalize_operators`: the eleven literal/word substitutions in order. -/
def normalizeOperators (s : List Char) : List Char :=
  let r := pyReplace s "*".data " \\cdot ".data
  let r := pyReplace r ">=".data "\\geq".data
  let r := pyReplace r "<=".data "\\leq".data
  let r := pyReplace r "!=".data "\\neq".data
  let r := pyReplace r "~=".data "\\approx".data
  let r := pyReplace r "->".data "\\rightarrow".data
  let r := pyReplace r "<-".data "\\leftarrow".data
  let r := pyReplace r "=>".data "\\Rightarrow".data
  let r := replaceWord false "infinity".data "\\infty".data r
  let r := pyReplace r "+/-".data "\\pm".data
  pyReplace r "-/+".data "\\mp".data

/-- One `re.sub(r'(?<!\\)lit\(([^)]+)\)', emitPre ++ '{...}', s)` pass for
`sqrt` and `cbrt`. -/
def rootAux (lit emitPre : List Char) : Nat → Option Char → List Char → List Char
  | 0, _, s => s
  | fuel + 1, prev, s =>
    match s with
    | [] => []
    | c :: rest =>
      let prevOk := match prev with
        | none => true
        | some p => p != '\\'
      if prevOk && (lit ++ ['(']).isPrefixOf (c :: rest) then
        let t := (c :: rest).drop (lit.length + 1)
        let r1 := t.takeWhile (fun d => d != ')')
        let t2 := t.drop r1.length
        if r1 ≠ [] ∧ t2.head? = some ')' then
          emitPre ++ '\x7b' :: (r1 ++ '\x7d' :: rootAux lit emitPre fuel (some ')') (t2.drop 1))
        else c :: rootAux lit emitPre fuel (some c) rest
      else c :: rootAux lit emitPre fuel (some c) rest

/-- `re.sub(r'(?<!\\)nthroot\((\d+),\s*([^)]+)\)', r'\\sqrt[\1]{\2}', s)`.
`\s*` is greedy but backs off one space when `[^)]+` would otherwise be
empty. -/
def nthrootAux : Nat → Option Char → List Char → List Char
  | 0, _, s => s
  | fuel + 1, prev, s =>
    match s with
    | [] => []
    | c :: rest =>
      let prevOk := match prev with
        | none => true
        | some p => p != '\\'
      if prevOk && "nthroot(".data.isPrefixOf (c :: rest) then
        let t := (c :: rest).drop 8
        let d1 := t.takeWhile Char.isDigit
        let t2 := t.drop d1.length
        match d1, t2 with
        | _ :: _, ',' :: t3 =>
          let y := t3.takeWhile (fun d => d != ')')
          let ws := (y.takeWhile isWS).length
          let x := y.drop (min ws (y.length - 1))
          let t4 := t3.drop y.length
          if y ≠ [] ∧ t4.head? = some ')' then
            "\\sqrt[".data ++ d1 ++ ']' :: '\x7b' ::
              (x ++ '\x7d' :: nthrootAux fuel (some ')') (t4.drop 1))
          else c :: nthrootAux fuel (some c) rest
        | _, _ => c :: nthrootAux fuel (some c) rest
      else c :: nthrootAux fuel (some c) rest

/-- `_normalize_roots`: sqrt, then cbrt, then nthroot. -/
def normalizeRoots (s : List Char) : List Char :=
  let r := rootAux "sqrt".data "\\sqrt".data s.length none s
  let r := rootAux "cbrt".data "\\sqrt[3]".data r.length none r
  nthrootAux r.length none r

/-- `re.sub(r'mark([a-zA-Z0-9]{2,})(?![{}])', r'mark{\1}', s)` for
`mark ∈ {_, ^}`.  The greedy group backs off one character (still length ≥ 2)
when the lookahead fails on a brace. -/
def subSupMultiAux (mark : Char) : Nat → List Char → List Char
  | 0, s => s
  | fuel + 1, s =>
    match s with
    | [] => []
    | c :: rest =>
      if c = mark then
        let r := rest.takeWhile Char.isAlphanum
        let afterBad := match rest.drop r.length with
          | [] => false
          | d :: _ => d == '\x7b' || d == '\x7d'
        if 2 ≤ r.length ∧ afterBad = false then
          mark :: '\x7b' :: (r ++ '\x7d' :: subSupMultiAux mark fuel (rest.drop r.length))
        else if 3 ≤ r.length then
          mark :: '\x7b' :: (r.take (r.length - 1) ++
            '\x7d' :: subSupMultiAux mark fuel (rest.drop (r.length - 1)))
        else c :: subSupMultiAux mark fuel rest
      else c :: subSupMultiAux mark fuel rest

/-- `re.sub(r'\^lit(?!bad)', r'^{lit}', s)` for the `^2`, `^3`, `^n` rules. -/
def caretLitAux (lit : Char) (badNext : Char → Bool) : Nat → List Char → List Char
  | 0, s => s
  | fuel + 1, s =>
    match s with
    | [] => []
    | c :: rest =>
      match rest with
      | d :: rest2 =>
        if c == '^' && d == lit && (match rest2 with
            | [] => true
            | e :: _ => !(badNext e)) then
          '^' :: '\x7b' :: lit :: '\x7d' :: caretLitAux lit badNext fuel rest2
        else c :: caretLitAux lit badNext fuel rest
      | [] => c :: caretLitAux lit badNext fuel rest

/-- `_normalize_subscripts_superscripts`: the five passes in source order. -/
def normalizeSubSup (s : List Char) : List Char :=
  let r := subSupMultiAux '_' s.length s
  let r := subSupMultiAux '^' r.length r
  let r := caretLitAux '2' (fun e => e == '\x7b' || e == '\x7d' || e.isDigit) r.length r
  let r := caretLitAux '3' (fun e => e == '\x7b' || e == '\x7d' || e.isDigit) r.length r
  caretLitAux 'n' (fun e => e == '\x7b' || e == '\x7d' || e.isAlpha) r.length r

/-- The Greek-name list of `_normalize_greek_letters`, in source order
(each replacement is a backslash followed by the name itself). -/
def greekNames : List String :=
  ["alpha", "beta", "gamma", "delta", "epsilon", "zeta",
   "eta", "theta", "iota", "kappa", "mu",
   "nu", "xi", "rho", "sigma", "tau",
   "upsilon", "phi", "chi", "psi", "omega",
   "pi", "lambda",
   "Gamma", "Delta", "Theta", "Lambda", "Xi", "Pi",
   "Sigma", "Phi", "Psi", "Omega"]

/-- `_normalize_greek_letters`. -/
def normalizeGreek (s : List Char) : List Char :=
  greekNames.foldl (fun acc n => replaceWord true n.data ('\\' :: n.data) acc) s

/-- `_normalize_brackets`: identity in both branches of the source. -/
def normalizeBrackets (s : List Char) : List Char :=
  if occursB "\\left".data s || occursB "\\right".data s then s else s

/-- `normalize_latex` from `src/rag_system/latex_normalizer.py`. -/
def normalize_latex (s : String) : String :=
  if s.data = [] then "" else
  let n := trimWS s.data
  let n := trimWS (stripDollarDelims n)
  let n := collapseWS n
  let n := normalizeFractions n
  let n := normalizeFunctions n
  let n := normalizeOperators n
  let n := normalizeRoots n
  let n := normalizeSubSup n
  let n := normalizeGreek n
  let n := normalizeBrackets n
  String.mk (trimWS n)

/-! ## Marker resolution, from `replace_markers_with_latex`
(`src/rag_system/vector_formula_extractor.py`, lines 313-340) -/

/-- One entry of the formula list consumed by the resolver: its marker token
and the (nullable) LaTeX produced by the vision step. -/
structure MFormula where
  marker : String
  latex : Option String
deriving DecidableEq

/-- The display block `f"\n\n$${latex}$$\n\n"` substituted for a marker. -/
def displayBlock (l : String) : String := "\n\n$$" ++ l ++ "$$\n\n"

/-- One iteration of the resolver loop: Python's
`if marker and latex and marker in result: result = result.replace(...)`.
(`marker`/`latex` truthiness = non-None and nonempty.) -/
def resolveStep (text : String) (f : MFormula) : String :=
  match f.latex with
  | none => text
  | some l =>
    if f.marker.data ≠ [] ∧ l.data ≠ [] ∧ occursB f.marker.data text.data then
      String.mk (pyReplace text.data f.marker.data (displayBlock l).data)
    else text

/-- `replace_markers_with_latex`: fold the loop over the formula list. -/
def replace_markers_with_latex (text : String) (fs : List MFormula) : String :=
  fs.foldl resolveStep text

/-! ## Page geometry and the candidate filters, from
`create_marked_pdf_and_extract_formulas` and `has_vector_formulas`
(`src/rag_system/vector_formula_extractor.py`).  Float coordinates are
modelled as rationals. -/

structure PRect where
  x0 : ℚ
  y0 : ℚ
  x1 : ℚ
  y1 : ℚ
deriving DecidableEq

def rectWidth (r : PRect) : ℚ := r.x1 - r.x0

def rectHeight (r : PRect) : ℚ := r.y1 - r.y0

/-- `rect.get_area()` of a (normalized) fitz rectangle. -/
def rectArea (r : PRect) : ℚ := rectWidth r * rectHeight r

/-- Area contributed by `rect & table_bbox` when the intersection is
non-empty (`0` when it is empty, mirroring the `is_empty` guard). -/
def interArea (a b : PRect) : ℚ :=
  max 0 (min a.x1 b.x1 - max a.x0 b.x0) * max 0 (min a.y1 b.y1 - max a.y0 b.y0)

/-- The summed `overlap_area` of a cluster rectangle over all table boxes. -/
def overlapArea (tables : List PRect) (r : PRect) : ℚ :=
  (tables.map (fun t => interArea r t)).sum

/-- A vector drawing cluster: its bounding rectangle plus the
`pix.color_count()` of its rendered image. -/
structure Cluster where
  rect : PRect
  colorCount : Nat
deriving DecidableEq

/-- One PDF page: dimensions, detected table boxes, drawing clusters. -/
structure Page where
  width : ℚ
  height : ℚ
  tables : List PRect
  clusters : List Cluster
deriving DecidableEq

/-- `overlap_area > rect.get_area() * 0.5` rejection. -/
def tableRejected (p : Page) (r : PRect) : Bool :=
  decide (overlapArea p.tables r > rectArea r * (1 / 2))

/-- `rect.y1 < 70 or rect.y0 > page.rect.height - 70` rejection. -/
def headerFooter (p : Page) (r : PRect) : Bool :=
  decide (r.y1 < 70 ∨ r.y0 > p.height - 70)

/-- `width < 30 or height < 10` rejection of the extraction scan. -/
def tooSmall (r : PRect) : Bool :=
  decide (rectWidth r < 30 ∨ rectHeight r < 10)

/-- Per-cluster acceptance of `create_marked_pdf_and_extract_formulas`:
table overlap, header/footer band, minimum size, near-blank image. -/
def acceptExtract (p : Page) (c : Cluster) : Bool :=
  !tableRejected p c.rect && !headerFooter p c.rect && !tooSmall c.rect &&
    decide (3 ≤ c.colorCount)

/-- Per-cluster acceptance of `has_vector_formulas`:
`width > 30 and height > 10 and width < page.rect.width * 0.9`. -/
def acceptDetect (p : Page) (c : Cluster) : Bool :=
  !tableRejected p c.rect && !headerFooter p c.rect &&
    decide (30 < rectWidth c.rect ∧ 10 < rectHeight c.rect ∧
      rectWidth c.rect < p.width * (9 / 10))

/-- `has_vector_formulas`: count accepted clusters on the sampled pages. -/
def has_vector_formulas (pages : List Page) (samplePages : Nat := 3) : Bool :=
  decide (0 < ((pages.take samplePages).map
    (fun p => (p.clusters.filter (acceptDetect p)).length)).sum)

/-! ## Marker injection, from `create_marked_pdf_and_extract_formulas` -/

/-- Decimal digits of `n`, most significant first. -/
def toDec (n : Nat) : List Char :=
  if _h : n < 10 then [Nat.digitChar n]
  else toDec (n / 10) ++ [Nat.digitChar (n % 10)]
termination_by n
decreasing_by exact Nat.div_lt_self (by omega) (by omega)

/-- Python `f"{n:03d}"`: decimal, left-padded with zeros to width 3. -/
def pad3 (n : Nat) : List Char :=
  List.replicate (3 - (toDec n).length) '0' ++ toDec n

def FORMULA_MARKER_PREFIX : String := "##FORMULA_"

def FORMULA_MARKER_SUFFIX : String := "##"

/-- `f"{FORMULA_MARKER_PREFIX}{formula_idx:03d}{FORMULA_MARKER_SUFFIX}"`. -/
def formulaMarker (i : Nat) : String :=
  String.mk (FORMULA_MARKER_PREFIX.data ++ pad3 i ++ FORMULA_MARKER_SUFFIX.data)

/-- `f"formula_{formula_idx:03d}.png"`. -/
def formulaImageName (i : Nat) : String :=
  String.mk ("formula_".data ++ pad3 i ++ ".png".data)

/-- The dictionary appended per accepted cluster (marker, image file,
1-based page number, sequence index). -/
structure FInfo where
  marker : String
  image_name : String
  page_num : Nat
  index : Nat
deriving DecidableEq

def mkFInfo (idx pageNum1 : Nat) : FInfo :=
  ⟨formulaMarker idx, formulaImageName idx, pageNum1, idx⟩

/-- Inner loop over the clusters of one page (`pageNum` is 0-based; the
record stores `page_num + 1`); `idx` is the running `formula_idx`. -/
def scanClusters (p : Page) (pageNum : Nat) : List Cluster → Nat → List FInfo
  | [], _ => []
  | c :: rest, idx =>
    if acceptExtract p c then
      mkFInfo idx (pageNum + 1) :: scanClusters p pageNum rest (idx + 1)
    else scanClusters p pageNum rest idx

/-- Outer loop over the pages of the document. -/
def scanPages : List Page → Nat → Nat → List FInfo
  | [], _, _ => []
  | p :: rest, pageNum, idx =>
    let fs := scanClusters p pageNum p.clusters idx
    fs ++ scanPages rest (pageNum + 1) (idx + fs.length)

/-- The full formula-discovery scan of
`create_marked_pdf_and_extract_formulas`. -/
def extractFormulas (pages : List Page) : List FInfo := scanPages pages 0 0

/-! ## Output paths and the zero-candidate short circuit (C7).
A filesystem path is modelled as a directory plus a file name. -/

structure DocPath where
  dir : String
  fname : String
deriving DecidableEq

/-- The source document: `pdf_path` split as `Path` does into parent
directory, stem and suffix (the suffix is empty or starts with a dot). -/
structure SrcDoc where
  dir : String
  stem : String
  suffix : String
deriving DecidableEq

def srcPath (s : SrcDoc) : DocPath := ⟨s.dir, s.stem ++ s.suffix⟩

/-- `temp_dir / f"{pdf_path.stem}_marked.pdf"`. -/
def markedPath (tempDir : String) (s : SrcDoc) : DocPath :=
  ⟨tempDir, s.stem ++ "_marked.pdf"⟩

/-- Result of `create_marked_pdf_and_extract_formulas`: returned path,
formula list, and the list of paths passed to `doc.save`. -/
structure MarkedResult where
  outPath : DocPath
  formulas : List FInfo
  docSaves : List DocPath
deriving DecidableEq

/-- `create_marked_pdf_and_extract_formulas` at the document level: if no
candidate survives, return the original path, an empty list, and save
nothing; otherwise save the mutated copy to the temp path and return it. -/
def create_marked_pdf_and_extract_formulas (tempDir : String) (src : SrcDoc)
    (pages : List Page) : MarkedResult :=
  let fs := extractFormulas pages
  if fs.isEmpty then ⟨srcPath src, [], []⟩
  else ⟨markedPath tempDir src, fs, [markedPath tempDir src]⟩

/-! ## Vision extraction, from `convert_formula_image_to_latex` and
`convert_all_formulas_to_latex`.  The external vision service is an
oracle: per image path, whether the file exists and either a raised
exception (`Except.error`) or the reply content. -/

structure VisionEnv where
  imageExists : String → Bool
  callResult : String → Except Unit String

/-- The response cleanup: `strip()`, remove code fences, `strip()`,
`strip("$")`; an empty remainder yields `None`. -/
def cleanupLatex (content : String) : Option String :=
  let l := trimWS content.data
  let l := pyReplace l "```latex".data []
  let l := pyReplace l "```".data []
  let l := trimWS l
  let l := trimDollar l
  if l = [] then none else some (String.mk l)

/-- `convert_formula_image_to_latex`: missing file or any exception in the
`try` block yields `None`, otherwise the cleaned-up reply. -/
def convert_formula_image_to_latex (env : VisionEnv) (imagePath : String) :
    Option String :=
  if env.imageExists imagePath = false then none
  else match env.callResult imagePath with
    | .error _ => none
    | .ok content => cleanupLatex content

/-- One formula dictionary as seen by `convert_all_formulas_to_latex`. -/
structure VFormula where
  image_path : String
  latex : Option String
  normalized : Option String
deriving DecidableEq

/-- One iteration of the `convert_all_formulas_to_latex` loop: on success
set `latex` and `normalized`; on failure set `latex = None`. -/
def updateFormula (env : VisionEnv) (f : VFormula) : VFormula :=
  match convert_formula_image_to_latex env f.image_path with
  | some l => { f with latex := some l, normalized := some (normalize_latex l) }
  | none => { f with latex := none }

/-- `convert_all_formulas_to_latex`: process every formula in order. -/
def convert_all_formulas_to_latex (env : VisionEnv) :
    List VFormula → List VFormula
  | [] => []
  | f :: rest => updateFormula env f :: convert_all_formulas_to_latex env rest

/-! ## Placeholder fallback, from `insert_formulas_into_markdown`
(`src/rag_system/page_formula_extractor.py`, lines 202-237).
The placeholder regex
`\$\$\s*\(\s*[Ff]\s*o?\s*r?\s*m?\s*u?\s*l?\s*e?\s*[\s\\]*(\d+)\s*\.?\s*(\d+)\s*\)\s*\$\$`
is embedded as a deterministic matcher; the only backtracking the pattern
can perform (splitting one digit run between the two groups, and the
optional dot) is made explicit. -/

structure PageFormula where
  latex : String
  location : String
  page_num : Nat
deriving DecidableEq

/-- A matcher consumes a prefix of the input: `some (eaten, rest)`. -/
abbrev Muncher := List Char → Option (List Char × List Char)

def mEat (c : Char) : Muncher := fun s =>
  match s with
  | x :: r => if x == c then some ([x], r) else none
  | [] => none

def mClass (cls : Char → Bool) : Muncher := fun s =>
  match s with
  | x :: r => if cls x then some ([x], r) else none
  | [] => none

def mStar (cls : Char → Bool) : Muncher := fun s =>
  some (s.takeWhile cls, s.dropWhile cls)

def mPlus (cls : Char → Bool) : Muncher := fun s =>
  let t := s.takeWhile cls
  if t.isEmpty then none else some (t, s.dropWhile cls)

def mOpt (c : Char) : Muncher := fun s =>
  match s with
  | x :: r => if x == c then some ([x], r) else some ([], s)
  | [] => some ([], s)

def mSeq (a b : Muncher) : Muncher := fun s =>
  match a s with
  | none => none
  | some (e1, r1) =>
    match b r1 with
    | none => none
    | some (e2, r2) => some (e1 ++ e2, r2)

/-- `\s*c?` for one optional letter of "ormule". -/
def mOptLetter (c : Char) : Muncher := mSeq (mStar isWS) (mOpt c)

/-- `\s*\.?\s*(\d+)\s*\)\s*\$\$` (the dot branch needs no backtracking:
if the greedy dot path fails on `\d+`, the dotless path fails there too). -/
def phTailM : Muncher :=
  mSeq (mStar isWS) (mSeq (mOpt '.') (mSeq (mStar isWS) (mSeq (mPlus Char.isDigit)
    (mSeq (mStar isWS) (mSeq (mEat ')') (mSeq (mStar isWS)
      (mSeq (mEat '$') (mEat '$'))))))))

/-- Greedy backtracking of `(\d+)` over its maximal digit run: try the
longest split first. -/
def phDigitsTry (run rest : List Char) : Nat → Option (List Char × List Char)
  | 0 => none
  | k + 1 =>
    match phTailM (run.drop (k + 1) ++ rest) with
    | some (e, r) => some (run.take (k + 1) ++ e, r)
    | none => phDigitsTry run rest k

/-- `(\d+)` followed by `phTailM`, with the regex's greedy split. -/
def phDigits : Muncher := fun s =>
  let run := s.takeWhile Char.isDigit
  let rest := s.dropWhile Char.isDigit
  if run.isEmpty then none else phDigitsTry run rest run.length

/-- The whole placeholder pattern. -/
def matchPH : Muncher :=
  mSeq (mEat '$') (mSeq (mEat '$') (mSeq (mStar isWS) (mSeq (mEat '(')
    (mSeq (mStar isWS) (mSeq (mClass (fun x => x == 'F' || x == 'f'))
      (mSeq (mOptLetter 'o') (mSeq (mOptLetter 'r') (mSeq (mOptLetter 'm')
        (mSeq (mOptLetter 'u') (mSeq (mOptLetter 'l') (mSeq (mOptLetter 'e')
          (mSeq (mStar isWS)
            (mSeq (mStar (fun x => isWS x || x == '\\')) phDigits)))))))))))))

/-- The `re.sub` scan with the stateful replacement function of
`insert_formulas_into_markdown`: the `idx`-th match is replaced by
`f"\n$$\n{latex}\n$$\n"` while formulas remain, later matches are emitted
verbatim (`match.group(0)`). -/
def insertAux (fs : List PageFormula) : Nat → Nat → List Char → List Char
  | 0, _, s => s
  | fuel + 1, idx, s =>
    match s with
    | [] => []
    | c :: rest =>
      match matchPH (c :: rest) with
      | some (eaten, r) =>
        if h : idx < fs.length then
          "\n$$\n".data ++ (fs.get ⟨idx, h⟩).latex.data ++ "\n$$\n".data ++
            insertAux fs fuel (idx + 1) r
        else eaten ++ insertAux fs fuel idx r
      | none => c :: insertAux fs fuel idx rest

/-- `insertAux` at its canonical fuel (the length of the scanned text). -/
def insertRun (fs : List PageFormula) (idx : Nat) (s : List Char) : List Char :=
  insertAux fs s.length idx s

/-- A text assembled from alternating gap/placeholder segments followed by a
final gap: `g0 ++ P0 ++ g1 ++ P1 ++ ... ++ glast`. -/
def assembleText : List (List Char × List Char) → List Char → List Char
  | [], glast => glast
  | (g, P) :: rest, glast => g ++ (P ++ assembleText rest glast)

/-- The output the claim predicts for an assembled text: the i-th placeholder
(0-based, counting from `idx`) becomes the display block of the i-th formula
while formulas remain, every later placeholder stays verbatim, and the gaps
are copied unchanged. -/
def expected (fs : List PageFormula) : Nat → List (List Char × List Char) → List Char → List Char
  | _, [], glast => glast
  | idx, (g, P) :: rest, glast =>
    g ++ (if h : idx < fs.length then
      "\n$$\n".data ++ (fs.get ⟨idx, h⟩).latex.data ++ "\n$$\n".data ++
        expected fs (idx + 1) rest glast
    else P ++ expected fs idx rest glast)

/-- `insert_formulas_into_markdown`. -/
def insert_formulas_into_markdown (markdown : String) (fs : List PageFormula) :
    String :=
  String.mk (insertAux fs markdown.data.length 0 markdown.data)

/-! # Helper lemmas -/

theorem alnum_ne_paren {c : Char} (h : c.isAlphanum = true) : c ≠ '(' := by
  intro hc
  rw [hc] at h
  exact absurd h (by decide)

/-- `fracParenAux` is the identity on strings without an opening parenthesis. -/
theorem fracParen_id_of_no_paren :
    ∀ (fuel : Nat) (s : List Char), (∀ c ∈ s, c ≠ '(') → fracParenAux fuel s = s := by
  intro fuel
  induction fuel with
  | zero => intro s _; rfl
  | succ n ih =>
    intro s h
    cases s with
    | nil => rfl
    | cons c rest =>
      have hc : c ≠ '(' := h c (by simp)
      simp only [fracParenAux, if_neg hc]
      exact congrArg (c :: ·) (ih rest fun d hd => h d (List.mem_cons_of_mem _ hd))

/-- A cluster list all of whose members are rejected yields no candidates. -/
theorem scanClusters_nil_of_all_rejected (p : Page) (pn : Nat) :
    ∀ (cs : List Cluster) (idx : Nat), (∀ c ∈ cs, acceptExtract p c = false) →
      scanClusters p pn cs idx = [] := by
  intro cs
  induction cs with
  | nil => intro idx _; rfl
  | cons c rest ih =>
    intro idx hall
    simp only [scanClusters, hall c (by simp)]
    exact ih idx fun d hd => hall d (List.mem_cons_of_mem _ hd)

/-! # Claim theorems -/

set_option maxRecDepth 8000 in
/-- C1 (counterexample).  The full normalization pipeline is not idempotent:
on `"a * b"` the operator pass pads `\cdot` with spaces after the
whitespace-collapsing pass already ran, so a second run collapses the double
spaces and yields a different string. -/
theorem claim1_counterexample :
    normalize_latex (normalize_latex "a * b") ≠ normalize_latex "a * b" := by decide

set_option maxRecDepth 8000 in
/-- C1 (amended).  Canonicalization is idempotent on the spec's catalogued
example inputs (fractions, sub/superscripts, Greek names, escaped commands,
functions, roots, operators), though not on all strings. -/
theorem claim1_amended_idempotence :
    ∀ s ∈ (["a/b", "x_ab", "x_a", "alpha", "\\alpha", "a=c/d", "sqrt(x)", "x^2",
            "sin(x)", "x^n", "infinity", "p -> q", "(a+b)/(c-d)"] : List String),
      normalize_latex (normalize_latex s) = normalize_latex s := by decide

theorem claim1_witness :
    normalize_latex (normalize_latex "a/b") = normalize_latex "a/b" :=
  claim1_amended_idempotence "a/b" (by decide)

/-- C3 (counterexample).  A full-page-width cluster (width `95` on a page of
width `100`, well beyond 90 % of the page width) still becomes a candidate of
the extraction scan `create_marked_pdf_and_extract_formulas`: the 90 %-width
figure rejection does not exist there. -/
theorem claim3_counterexample :
    (extractFormulas [⟨100, 500, [], [⟨⟨5, 100, 100, 120⟩, 5⟩]⟩]).length = 1 ∧
    (100 : ℚ) * (9 / 10) < rectWidth ⟨5, 100, 100, 120⟩ := by
  have hacc : acceptExtract ⟨100, 500, [], [⟨⟨5, 100, 100, 120⟩, 5⟩]⟩
      ⟨⟨5, 100, 100, 120⟩, 5⟩ = true := by
    norm_num [acceptExtract, tableRejected, headerFooter, tooSmall, overlapArea,
      interArea, rectArea, rectWidth, rectHeight]
  refine ⟨?_, by norm_num [rectWidth]⟩
  simp [extractFormulas, scanPages, scanClusters, hacc]

/-- C3 (amended).  In the extraction scan every cluster with width < 30 or
height < 10 is rejected, but the 90 %-page-width rejection exists only in the
`has_vector_formulas` pre-check, whose acceptance moreover requires strict
`width > 30` and `height > 10`. -/
theorem claim3_amended_size_filter :
    (∀ (p : Page) (c : Cluster),
       rectWidth c.rect < 30 ∨ rectHeight c.rect < 10 → acceptExtract p c = false) ∧
    (∀ (p : Page) (c : Cluster), acceptDetect p c = true →
       30 < rectWidth c.rect ∧ 10 < rectHeight c.rect ∧
       rectWidth c.rect < p.width * (9 / 10)) := by
  constructor
  · intro p c h
    have hsz : tooSmall c.rect = true := by
      simp only [tooSmall, decide_eq_true_eq]
      exact h
    simp [acceptExtract, hsz]
  · intro p c h
    simp only [acceptDetect, Bool.and_eq_true, decide_eq_true_eq] at h
    exact h.2

theorem claim3_witness :
    acceptExtract ⟨100, 500, [], []⟩ ⟨⟨0, 100, 20, 120⟩, 5⟩ = false :=
  claim3_amended_size_filter.1 _ _ (Or.inl (by norm_num [rectWidth]))

/-- C5.  A cluster whose summed overlap with the table boxes exceeds half its
own area is rejected; a (normalized) cluster lying entirely inside a table box
is always rejected; a page all of whose clusters are rejected produces zero
candidates. -/
theorem claim5_table_exclusion :
    (∀ (p : Page) (c : Cluster),
       overlapArea p.tables c.rect > rectArea c.rect * (1 / 2) →
       acceptExtract p c = false) ∧
    (∀ (p : Page) (c : Cluster) (t : PRect), t ∈ p.tables →
       t.x0 ≤ c.rect.x0 → c.rect.x1 ≤ t.x1 → t.y0 ≤ c.rect.y0 → c.rect.y1 ≤ t.y1 →
       c.rect.x0 ≤ c.rect.x1 → c.rect.y0 ≤ c.rect.y1 →
       acceptExtract p c = false) ∧
    (∀ (p : Page) (pn idx : Nat), (∀ c ∈ p.clusters, acceptExtract p c = false) →
       scanClusters p pn p.clusters idx = []) := by
  refine ⟨?_, ?_, ?_⟩
  · intro p c h
    have hrej : tableRejected p c.rect = true := by
      simp only [tableRejected, decide_eq_true_eq]
      exact h
    simp [acceptExtract, hrej]
  · intro p c t ht hx0 hx1 hy0 hy1 hxn hyn
    by_cases hsmall : rectWidth c.rect < 30 ∨ rectHeight c.rect < 10
    · have hsz : tooSmall c.rect = true := by
        simp only [tooSmall, decide_eq_true_eq]
        exact hsmall
      simp [acceptExtract, hsz]
    · push_neg at hsmall
      have hw : (30 : ℚ) ≤ rectWidth c.rect := hsmall.1
      have hh : (10 : ℚ) ≤ rectHeight c.rect := hsmall.2
      have harea : 0 < rectArea c.rect := by
        have : (0 : ℚ) < rectWidth c.rect := lt_of_lt_of_le (by norm_num) hw
        have h2 : (0 : ℚ) < rectHeight c.rect := lt_of_lt_of_le (by norm_num) hh
        exact mul_pos this h2
      have hinter : interArea c.rect t = rectArea c.rect := by
        simp only [interArea, rectArea, rectWidth, rectHeight]
        rw [min_eq_left hx1, max_eq_left hx0, min_eq_left hy1, max_eq_left hy0,
          max_eq_right (by linarith), max_eq_right (by linarith)]
      have hmem : interArea c.rect t ∈ p.tables.map (fun u => interArea c.rect u) :=
        List.mem_map_of_mem _ ht
      have hnn : ∀ x ∈ p.tables.map (fun u => interArea c.rect u), (0 : ℚ) ≤ x := by
        intro x hx
        rcases List.mem_map.mp hx with ⟨u, _, rfl⟩
        exact mul_nonneg (le_max_left 0 _) (le_max_left 0 _)
      have hsum : interArea c.rect t ≤ overlapArea p.tables c.rect :=
        List.single_le_sum hnn _ hmem
      have hrej : tableRejected p c.rect = true := by
        simp only [tableRejected, decide_eq_true_eq]
        rw [hinter] at hsum
        linarith
      simp [acceptExtract, hrej]
  · intro p pn idx hall
    exact scanClusters_nil_of_all_rejected p pn p.clusters idx hall

theorem claim5_witness :
    acceptExtract ⟨600, 800, [⟨0, 100, 300, 400⟩], []⟩ ⟨⟨50, 150, 150, 200⟩, 5⟩ = false :=
  claim5_table_exclusion.2.1 _ _ ⟨0, 100, 300, 400⟩ (by simp) (by norm_num) (by norm_num)
    (by norm_num) (by norm_num) (by norm_num) (by norm_num)

/-- C6.  Extraction failure is never fatal: a raised exception or a missing
image file makes `convert_formula_image_to_latex` return `none`;
`convert_all_formulas_to_latex` processes every formula independently (it is
the elementwise map of the single-formula update), and a failed conversion
records `latex = none` while leaving the other fields of that entry alone. -/
theorem claim6_failure_isolation :
    (∀ (env : VisionEnv) (path : String), env.callResult path = .error () →
       convert_formula_image_to_latex env path = none) ∧
    (∀ (env : VisionEnv) (path : String), env.imageExists path = false →
       convert_formula_image_to_latex env path = none) ∧
    (∀ (env : VisionEnv) (fs : List VFormula),
       convert_all_formulas_to_latex env fs = fs.map (updateFormula env)) ∧
    (∀ (env : VisionEnv) (f : VFormula),
       convert_formula_image_to_latex env f.image_path = none →
       (updateFormula env f).latex = none ∧
       (updateFormula env f).normalized = f.normalized ∧
       (updateFormula env f).image_path = f.image_path) := by
  refine ⟨?_, ?_, ?_, ?_⟩
  · intro env path h
    by_cases hex : env.imageExists path = false
    · simp [convert_formula_image_to_latex, hex]
    · simp only [Bool.not_eq_false] at hex
      simp [convert_formula_image_to_latex, hex, h]
  · intro env path h
    simp [convert_formula_image_to_latex, h]
  · intro env fs
    induction fs with
    | nil => rfl
    | cons f rest ih => simp [convert_all_formulas_to_latex, ih]
  · intro env f h
    simp [updateFormula, h]

theorem claim6_witness :
    convert_formula_image_to_latex ⟨fun _ => true, fun _ => .error ()⟩ "img.png" = none :=
  claim6_failure_isolation.1 ⟨fun _ => true, fun _ => .error ()⟩ "img.png" rfl

set_option maxRecDepth 8000 in
/-- C8.  Fraction inference: a single alphanumeric character, a slash and a
single alphanumeric character (in the empty context) rewrite to `\frac`
notation; in particular `normalize_latex "a/b" = "\frac{a}{b}"`, while a
preceding or following letter (or a preceding backslash) blocks the rewrite. -/
theorem claim8_fraction_inference :
    normalize_latex "a/b" = "\\frac{a}{b}" ∧
    (∀ c1 c2 : Char, c1.isAlphanum = true → c2.isAlphanum = true →
      normalizeFractions [c1, '/', c2] =
        ['\\', 'f', 'r', 'a', 'c', '\x7b', c1, '\x7d', '\x7b', c2, '\x7d']) ∧
    normalize_latex "ab/c" = "ab/c" ∧ normalize_latex "a/bc" = "a/bc" ∧
    normalize_latex "\\a/b" = "\\a/b" := by
  refine ⟨by decide, ?_, by decide, by decide, by decide⟩
  intro c1 c2 h1 h2
  have e1 : fracSingleAux 3 none [c1, '/', c2] =
      ['\\', 'f', 'r', 'a', 'c', '\x7b', c1, '\x7d', '\x7b', c2, '\x7d'] := by
    simp [fracSingleAux, h1, h2, fracPrevOk, fracAfterOk]
  calc normalizeFractions [c1, '/', c2]
      = fracParenAux (fracSingleAux 3 none [c1, '/', c2]).length
          (fracSingleAux 3 none [c1, '/', c2]) := rfl
    _ = ['\\', 'f', 'r', 'a', 'c', '\x7b', c1, '\x7d', '\x7b', c2, '\x7d'] := by
          rw [e1]
          apply fracParen_id_of_no_paren
          intro d hd
          simp only [List.mem_cons, List.not_mem_nil, or_false] at hd
          rcases hd with rfl | rfl | rfl | rfl | rfl | rfl | rfl | rfl | rfl | rfl | rfl
          all_goals first
            | decide
            | exact alnum_ne_paren h1
            | exact alnum_ne_paren h2

theorem claim8_witness :
    normalizeFractions ['x', '/', 'y'] =
      ['\\', 'f', 'r', 'a', 'c', '\x7b', 'x', '\x7d', '\x7b', 'y', '\x7d'] :=
  claim8_fraction_inference.2.1 'x' 'y' (by decide) (by decide)

set_option maxRecDepth 8000 in
/-- C9.  Greek-letter substitution without double escaping: bare Greek names
get a control-sequence backslash (in particular through the full pipeline for
`"alpha"`), and every already-escaped Greek name of the source's list passes
the Greek pass unchanged, so no second backslash is ever added. -/
theorem claim9_greek_escaping :
    normalize_latex "alpha" = "\\alpha" ∧
    normalize_latex "\\alpha" = "\\alpha" ∧
    (∀ name ∈ greekNames, normalizeGreek ('\\' :: name.data) = '\\' :: name.data) ∧
    (∀ name ∈ greekNames, normalizeGreek name.data = '\\' :: name.data) := by decide

theorem claim9_witness : normalizeGreek ('\\' :: "alpha".data) = '\\' :: "alpha".data :=
  claim9_greek_escaping.2.2.1 "alpha" (by decide)

/-- C2 (counterexample).  A formula whose `latex` is the non-null empty string
with its marker present in the text is skipped by the resolver (Python
truthiness), contradicting the claim that every non-null LaTeX with an
occurring token is substituted by the display block. -/
theorem claim2_counterexample :
    replace_markers_with_latex "##FORMULA_000##" [⟨"##FORMULA_000##", some ""⟩] =
      "##FORMULA_000##" ∧
    "##FORMULA_000##" ≠ displayBlock "" := by decide

/-- C2 (amended).  Marker-mode resolution for non-null, nonempty LaTeX: when
the token occurs, the output is the text with every occurrence of the token
replaced by the display block (the semantics of `str.replace`); formulas with
null LaTeX change nothing, and a token that does not occur changes nothing —
a marker is never silently erased. -/
theorem claim2_amended_resolution :
    (∀ (t m l : String), m.data ≠ [] → l.data ≠ [] → occursB m.data t.data = true →
       replace_markers_with_latex t [⟨m, some l⟩] =
         String.mk (pyReplace t.data m.data (displayBlock l).data)) ∧
    (∀ (t : String) (fs : List MFormula), (∀ f ∈ fs, f.latex = none) →
       replace_markers_with_latex t fs = t) ∧
    (∀ (t m l : String), occursB m.data t.data = false →
       replace_markers_with_latex t [⟨m, some l⟩] = t) := by
  refine ⟨?_, ?_, ?_⟩
  · intro t m l h1 h2 h3
    simp only [replace_markers_with_latex, List.foldl_cons, List.foldl_nil, resolveStep]
    rw [if_pos ⟨h1, h2, h3⟩]
  · intro t fs hall
    induction fs generalizing t with
    | nil => rfl
    | cons f rest ih =>
      have hf : f.latex = none := hall f (by simp)
      simp only [replace_markers_with_latex, List.foldl_cons]
      have hstep : resolveStep t f = t := by
        simp [resolveStep, hf]
      rw [hstep]
      exact ih t fun g hg => hall g (List.mem_cons_of_mem _ hg)
  · intro t m l h
    simp only [replace_markers_with_latex, List.foldl_cons, List.foldl_nil, resolveStep]
    rw [if_neg]
    rintro ⟨-, -, h3⟩
    rw [h] at h3
    exact absurd h3 (by decide)

theorem claim2_witness :
    replace_markers_with_latex "x ##FORMULA_000## y" [⟨"##FORMULA_000##", some "E"⟩] =
      "x \n\n$$E$$\n\n y" := by
  have h := claim2_amended_resolution.1 "x ##FORMULA_000## y" "##FORMULA_000##" "E"
    (by decide) (by decide) (by decide)
  rw [h]
  decide

/-- `(a ++ b).data = a.data ++ b.data` for strings. -/
theorem string_data_append (a b : String) : (a ++ b).data = a.data ++ b.data := rfl

/-- The marked-PDF output path never coincides with the source path (the
suffix of a `Path` is empty or starts with a dot, while the marked file name
appends `_marked.pdf` to the stem). -/
theorem marked_ne_src (tempDir : String) (src : SrcDoc)
    (hsuf : src.suffix = "" ∨ src.suffix.data.head? = some '.') :
    markedPath tempDir src ≠ srcPath src := by
  intro h
  have hf : src.stem ++ "_marked.pdf" = src.stem ++ src.suffix :=
    congrArg DocPath.fname h
  have hd : src.stem.data ++ "_marked.pdf".data = src.stem.data ++ src.suffix.data := by
    have h2 := congrArg String.data hf
    rwa [string_data_append, string_data_append] at h2
  have he : "_marked.pdf".data = src.suffix.data := List.append_cancel_left hd
  rcases hsuf with h0 | h0
  · rw [h0] at he
    exact absurd he (by decide)
  · have h3 : ("_marked.pdf".data).head? = src.suffix.data.head? := congrArg List.head? he
    rw [h0] at h3
    exact absurd h3 (by decide)

/-- C7.  Zero-candidate short circuit and source preservation: with no
surviving candidates the function returns the original path, an empty formula
list and performs no document save; otherwise it saves the marked copy to a
fresh path distinct from the source, and no document save ever targets the
source path. -/
theorem claim7_short_circuit :
    ∀ (tempDir : String) (src : SrcDoc) (pages : List Page),
      src.suffix = "" ∨ src.suffix.data.head? = some '.' →
      ((extractFormulas pages = [] →
         (create_marked_pdf_and_extract_formulas tempDir src pages).outPath = srcPath src ∧
         (create_marked_pdf_and_extract_formulas tempDir src pages).formulas = [] ∧
         (create_marked_pdf_and_extract_formulas tempDir src pages).docSaves = []) ∧
       (extractFormulas pages ≠ [] →
         (create_marked_pdf_and_extract_formulas tempDir src pages).outPath =
           markedPath tempDir src ∧
         (create_marked_pdf_and_extract_formulas tempDir src pages).outPath ≠ srcPath src) ∧
       (∀ q ∈ (create_marked_pdf_and_extract_formulas tempDir src pages).docSaves,
         q ≠ srcPath src)) := by
  intro tempDir src pages hsuf
  by_cases hfs : extractFormulas pages = []
  · refine ⟨fun _ => ?_, fun hne => absurd hfs hne, fun q hq => ?_⟩
    · simp [create_marked_pdf_and_extract_formulas, hfs]
    · simp [create_marked_pdf_and_extract_formulas, hfs] at hq
  · have hne : (extractFormulas pages).isEmpty = false := by
      simpa [List.isEmpty_iff] using hfs
    refine ⟨fun h0 => absurd h0 hfs, fun _ => ?_, fun q hq => ?_⟩
    · constructor
      · simp [create_marked_pdf_and_extract_formulas, hne]
      · simp only [create_marked_pdf_and_extract_formulas, hne, Bool.false_eq_true,
          if_false]
        exact marked_ne_src tempDir src hsuf
    · simp only [create_marked_pdf_and_extract_formulas, hne, Bool.false_eq_true,
        if_false, List.mem_singleton] at hq
      rw [hq]
      exact marked_ne_src tempDir src hsuf

/-- Inverse of the decimal rendering, to establish injectivity. -/
def parseDec (l : List Char) : Nat :=
  l.foldl (fun a c => 10 * a + (c.toNat - 48)) 0

theorem digitChar_val {n : Nat} (h : n < 10) : (Nat.digitChar n).toNat - 48 = n := by
  interval_cases n <;> rfl

theorem parseDec_toDec : ∀ n : Nat, parseDec (toDec n) = n := by
  intro n
  induction n using Nat.strong_induction_on with
  | _ n ih =>
    by_cases h : n < 10
    · rw [toDec, dif_pos h]
      simp [parseDec, digitChar_val h]
    · rw [toDec, dif_neg h]
      have hdiv : n / 10 < n := Nat.div_lt_self (by omega) (by omega)
      have hmod : n % 10 < 10 := Nat.mod_lt _ (by omega)
      rw [parseDec, List.foldl_append]
      simp only [List.foldl_cons, List.foldl_nil]
      rw [show List.foldl (fun a c => 10 * a + (c.toNat - 48)) 0 (toDec (n / 10)) =
        parseDec (toDec (n / 10)) from rfl, ih _ hdiv, digitChar_val hmod]
      omega

theorem parseDec_zeros : ∀ k : Nat, parseDec (List.replicate k '0') = 0 := by
  intro k
  induction k with
  | zero => rfl
  | succ k ih => simpa [parseDec, List.replicate_succ] using ih

theorem parseDec_pad3 (n : Nat) : parseDec (pad3 n) = n := by
  rw [pad3, parseDec, List.foldl_append]
  rw [show List.foldl (fun a c => 10 * a + (c.toNat - 48)) 0
    (List.replicate (3 - (toDec n).length) '0') =
    parseDec (List.replicate (3 - (toDec n).length) '0') from rfl, parseDec_zeros]
  exact parseDec_toDec n

theorem pad3_injective : Function.Injective pad3 := by
  intro m n h
  have h2 := congrArg parseDec h
  rwa [parseDec_pad3, parseDec_pad3] at h2

theorem formulaMarker_injective : Function.Injective formulaMarker := by
  intro i j h
  have hd : FORMULA_MARKER_PREFIX.data ++ pad3 i ++ FORMULA_MARKER_SUFFIX.data =
      FORMULA_MARKER_PREFIX.data ++ pad3 j ++ FORMULA_MARKER_SUFFIX.data := by
    simpa [formulaMarker] using congrArg String.data h
  exact pad3_injective (List.append_cancel_left (List.append_cancel_right hd))

/-- Invariants of the inner cluster loop: the indices of the produced entries
count up from the running index, every entry carries the marker of its own
index, and every entry carries the (1-based) page number of its page. -/
theorem scanClusters_props (p : Page) (pn : Nat) :
    ∀ (cs : List Cluster) (idx : Nat),
      (scanClusters p pn cs idx).map FInfo.index =
        List.range' idx (scanClusters p pn cs idx).length ∧
      ∀ f ∈ scanClusters p pn cs idx,
        f.marker = formulaMarker f.index ∧ f.page_num = pn + 1 := by
  intro cs
  induction cs with
  | nil => intro idx; exact ⟨rfl, by simp [scanClusters]⟩
  | cons c rest ih =>
    intro idx
    by_cases hc : acceptExtract p c = true
    · obtain ⟨ih1, ih2⟩ := ih (idx + 1)
      constructor
      · simp only [scanClusters, hc, if_true, List.map_cons, List.length_cons,
          List.range'_succ]
        rw [ih1]
        rfl
      · intro f hf
        simp only [scanClusters, hc, if_true, List.mem_cons] at hf
        rcases hf with rfl | hf
        · exact ⟨rfl, rfl⟩
        · exact ih2 f hf
    · have hc' : acceptExtract p c = false := by
        simpa using hc
      obtain ⟨ih1, ih2⟩ := ih idx
      constructor
      · simpa only [scanClusters, hc', if_false] using ih1
      · intro f hf
        simp only [scanClusters, hc', if_false] at hf
        exact ih2 f hf

/-- Invariants of the page loop: indices count up from the running index,
markers are determined by the index, page numbers are at least `pn + 1` and
non-decreasing along the output list. -/
theorem scanPages_props :
    ∀ (ps : List Page) (pn idx : Nat),
      (scanPages ps pn idx).map FInfo.index =
        List.range' idx (scanPages ps pn idx).length ∧
      (∀ f ∈ scanPages ps pn idx,
        f.marker = formulaMarker f.index ∧ pn + 1 ≤ f.page_num) ∧
      (scanPages ps pn idx).Pairwise (fun a b => a.page_num ≤ b.page_num) := by
  intro ps
  induction ps with
  | nil =>
    intro pn idx
    exact ⟨rfl, by simp [scanPages], by simp [scanPages]⟩
  | cons p rest ih =>
    intro pn idx
    obtain ⟨h1, h2⟩ := scanClusters_props p pn p.clusters idx
    obtain ⟨ih1, ih2, ih3⟩ := ih (pn + 1) (idx + (scanClusters p pn p.clusters idx).length)
    refine ⟨?_, ?_, ?_⟩
    · simp only [scanPages, List.map_append, List.length_append]
      rw [h1, ih1]
      have h4 := List.range'_append idx (scanClusters p pn p.clusters idx).length
        (scanPages rest (pn + 1)
          (idx + (scanClusters p pn p.clusters idx).length)).length 1
      rw [one_mul] at h4
      rw [h4]
      congr 1
      omega
    · intro f hf
      rcases List.mem_append.mp hf with h | h
      · exact ⟨(h2 f h).1, le_of_eq (h2 f h).2.symm⟩
      · obtain ⟨hm, hp⟩ := ih2 f h
        exact ⟨hm, by omega⟩
    · rw [scanPages]
      refine List.pairwise_append.mpr ⟨?_, ih3, ?_⟩
      · refine List.pairwise_of_forall_mem_list ?_
        intro a ha b hb
        rw [(h2 a ha).2, (h2 b hb).2]
      · intro a ha b hb
        rw [(h2 a ha).2]
        have := (ih2 b hb).2
        omega

/-- C4.  Marker token uniqueness and order: the extraction scan numbers its
accepted candidates `0, 1, 2, …` in discovery order (page-ascending, then
cluster order), every entry's marker token is `##FORMULA_` + zero-padded
index + `##`, no two entries share a marker, and page numbers are
non-decreasing along the list. -/
theorem claim4_marker_tokens :
    ∀ pages : List Page,
      (extractFormulas pages).map FInfo.index =
        List.range (extractFormulas pages).length ∧
      (∀ f ∈ extractFormulas pages, f.marker = formulaMarker f.index) ∧
      (extractFormulas pages).Pairwise (fun a b => a.marker ≠ b.marker) ∧
      (extractFormulas pages).Pairwise (fun a b => a.page_num ≤ b.page_num) := by
  intro pages
  obtain ⟨h1, h2, h3⟩ := scanPages_props pages 0 0
  have hidx : (extractFormulas pages).map FInfo.index =
      List.range (extractFormulas pages).length := by
    rw [List.range_eq_range']
    exact h1
  refine ⟨hidx, fun f hf => (h2 f hf).1, ?_, h3⟩
  have hlt : (extractFormulas pages).Pairwise (fun a b => a.index < b.index) := by
    have hpair : ((extractFormulas pages).map FInfo.index).Pairwise (· < ·) := by
      rw [hidx]
      exact List.pairwise_lt_range _
    exact List.pairwise_map.mp hpair
  refine hlt.imp_of_mem ?_
  intro a b ha hb hab heq
  rw [(h2 a ha).1, (h2 b hb).1] at heq
  exact absurd (formulaMarker_injective heq) (Nat.ne_of_lt hab)

theorem claim4_witness :
    (extractFormulas [⟨100, 500, [], [⟨⟨5, 100, 100, 120⟩, 5⟩]⟩]).map FInfo.index =
      List.range (extractFormulas [⟨100, 500, [], [⟨⟨5, 100, 100, 120⟩, 5⟩]⟩]).length ∧
    (mkFInfo 0 1).marker = formulaMarker (mkFInfo 0 1).index := by
  have h := claim4_marker_tokens [⟨100, 500, [], [⟨⟨5, 100, 100, 120⟩, 5⟩]⟩]
  refine ⟨h.1, ?_⟩
  apply h.2.1
  have hacc : acceptExtract ⟨100, 500, [], [⟨⟨5, 100, 100, 120⟩, 5⟩]⟩
      ⟨⟨5, 100, 100, 120⟩, 5⟩ = true := by
    norm_num [acceptExtract, tableRejected, headerFooter, tooSmall, overlapArea,
      interArea, rectArea, rectWidth, rectHeight]
  simp [extractFormulas, scanPages, scanClusters, hacc]

theorem claim7_witness :
    (create_marked_pdf_and_extract_formulas "/tmp" ⟨"/docs", "paper", ".pdf"⟩ []).outPath =
      srcPath ⟨"/docs", "paper", ".pdf"⟩ ∧
    (create_marked_pdf_and_extract_formulas "/tmp" ⟨"/docs", "paper", ".pdf"⟩ []).docSaves =
      [] := by
  have h := claim7_short_circuit "/tmp" ⟨"/docs", "paper", ".pdf"⟩ [] (Or.inr rfl)
  exact ⟨(h.1 rfl).1, (h.1 rfl).2.2⟩

/-- Soundness of a matcher: whatever it eats, concatenated with the rest,
is the input. -/
def MSound (m : Muncher) : Prop :=
  ∀ s e r, m s = some (e, r) → e ++ r = s

theorem mEat_sound (c : Char) : MSound (mEat c) := by
  intro s e r h
  cases s with
  | nil => exact absurd h (by simp [mEat])
  | cons x t =>
    simp only [mEat] at h
    split at h
    · obtain ⟨rfl, rfl⟩ : ([x], t) = (e, r) := by simpa using h
      rfl
    · exact absurd h (by simp)

theorem mClass_sound (cls : Char → Bool) : MSound (mClass cls) := by
  intro s e r h
  cases s with
  | nil => exact absurd h (by simp [mClass])
  | cons x t =>
    simp only [mClass] at h
    split at h
    · obtain ⟨rfl, rfl⟩ : ([x], t) = (e, r) := by simpa using h
      rfl
    · exact absurd h (by simp)

theorem mStar_sound (cls : Char → Bool) : MSound (mStar cls) := by
  intro s e r h
  obtain ⟨rfl, rfl⟩ : (s.takeWhile cls, s.dropWhile cls) = (e, r) := by
    simpa [mStar] using h
  exact List.takeWhile_append_dropWhile cls s

theorem mPlus_sound (cls : Char → Bool) : MSound (mPlus cls) := by
  intro s e r h
  simp only [mPlus] at h
  split at h
  · exact absurd h (by simp)
  · obtain ⟨rfl, rfl⟩ : (s.takeWhile cls, s.dropWhile cls) = (e, r) := by simpa using h
    exact List.takeWhile_append_dropWhile cls s

theorem mOpt_sound (c : Char) : MSound (mOpt c) := by
  intro s e r h
  cases s with
  | nil =>
    obtain ⟨rfl, rfl⟩ : (([] : List Char), ([] : List Char)) = (e, r) := by
      simpa [mOpt] using h
    rfl
  | cons x t =>
    simp only [mOpt] at h
    split at h
    · obtain ⟨rfl, rfl⟩ : ([x], t) = (e, r) := by simpa using h
      rfl
    · obtain ⟨rfl, rfl⟩ : (([] : List Char), x :: t) = (e, r) := by simpa using h
      rfl

theorem mSeq_sound {a b : Muncher} (ha : MSound a) (hb : MSound b) :
    MSound (mSeq a b) := by
  intro s e r h
  simp only [mSeq] at h
  cases hA : a s with
  | none => simp [hA] at h
  | some p =>
    obtain ⟨e1, r1⟩ := p
    simp only [hA] at h
    cases hB : b r1 with
    | none => simp [hB] at h
    | some q =>
      obtain ⟨e2, r2⟩ := q
      simp only [hB, Option.some.injEq, Prod.mk.injEq] at h
      obtain ⟨he, hr⟩ := h
      rw [← he, ← hr, List.append_assoc, hb r1 e2 r2 hB]
      exact ha s e1 r1 hA

theorem mOptLetter_sound (c : Char) : MSound (mOptLetter c) :=
  mSeq_sound (mStar_sound _) (mOpt_sound _)

theorem phTailM_sound : MSound phTailM := by
  unfold phTailM
  repeat
    first
      | exact mStar_sound _
      | exact mOpt_sound _
      | exact mPlus_sound _
      | exact mEat_sound _
      | apply mSeq_sound

theorem phDigitsTry_sound :
    ∀ (k : Nat) (run rest e r : List Char),
      phDigitsTry run rest k = some (e, r) → e ++ r = run ++ rest := by
  intro k
  induction k with
  | zero => intro run rest e r h; exact absurd h (by simp [phDigitsTry])
  | succ k ih =>
    intro run rest e r h
    simp only [phDigitsTry] at h
    cases hT : phTailM (run.drop (k + 1) ++ rest) with
    | none =>
      simp only [hT] at h
      exact ih run rest e r h
    | some p =>
      obtain ⟨e2, r2⟩ := p
      simp only [hT, Option.some.injEq, Prod.mk.injEq] at h
      obtain ⟨he, hr⟩ := h
      rw [← he, ← hr, List.append_assoc, phTailM_sound _ e2 r2 hT, ← List.append_assoc,
        List.take_append_drop]

theorem phDigits_sound : MSound phDigits := by
  intro s e r h
  simp only [phDigits] at h
  split at h
  · exact absurd h (by simp)
  · have h2 := phDigitsTry_sound _ _ _ _ _ h
    rwa [List.takeWhile_append_dropWhile] at h2

theorem matchPH_sound : MSound matchPH := by
  unfold matchPH
  repeat
    first
      | exact phDigits_sound
      | exact mStar_sound _
      | exact mOptLetter_sound _
      | exact mClass_sound _
      | exact mEat_sound _
      | apply mSeq_sound

theorem mSeq_nonempty_left {a b : Muncher}
    (ha : ∀ s e r, a s = some (e, r) → e ≠ []) :
    ∀ s e r, mSeq a b s = some (e, r) → e ≠ [] := by
  intro s e r h
  simp only [mSeq] at h
  cases hA : a s with
  | none => simp [hA] at h
  | some p =>
    obtain ⟨e1, r1⟩ := p
    simp only [hA] at h
    cases hB : b r1 with
    | none => simp [hB] at h
    | some q =>
      obtain ⟨e2, r2⟩ := q
      simp only [hB, Option.some.injEq, Prod.mk.injEq] at h
      obtain ⟨rfl, rfl⟩ := h
      have h1 : e1 ≠ [] := ha s e1 r1 hA
      simp [h1]

theorem mEat_nonempty (c : Char) :
    ∀ s e r, mEat c s = some (e, r) → e ≠ [] := by
  intro s e r h
  cases s with
  | nil => exact absurd h (by simp [mEat])
  | cons x t =>
    simp only [mEat] at h
    split at h
    · obtain ⟨rfl, rfl⟩ : ([x], t) = (e, r) := by simpa using h
      simp
    · exact absurd h (by simp)

theorem matchPH_nonempty :
    ∀ s e r, matchPH s = some (e, r) → e ≠ [] := by
  unfold matchPH
  exact mSeq_nonempty_left (mEat_nonempty '$')

/-- Once the formula list is exhausted (`fs.length ≤ idx`), the `re.sub` scan
emits every remaining character and every further match verbatim. -/
theorem insertAux_skip :
    ∀ (fuel : Nat) (fs : List PageFormula) (idx : Nat) (s : List Char),
      s.length ≤ fuel → fs.length ≤ idx → insertAux fs fuel idx s = s := by
  intro fuel
  induction fuel with
  | zero => intro fs idx s _ _; rfl
  | succ n ih =>
    intro fs idx s hs hidx
    cases s with
    | nil => rfl
    | cons c rest =>
      cases hm : matchPH (c :: rest) with
      | none =>
        simp only [insertAux, hm]
        exact congrArg (c :: ·)
          (ih fs idx rest (by simpa using Nat.le_of_succ_le_succ hs) hidx)
      | some p =>
        obtain ⟨eaten, r⟩ := p
        simp only [insertAux, hm]
        rw [dif_neg (by omega)]
        have hsound := matchPH_sound _ eaten r hm
        have hne := matchPH_nonempty _ eaten r hm
        have hp : 0 < eaten.length := List.length_pos.mpr hne
        have hr : r.length ≤ n := by
          have hlen := congrArg List.length hsound
          simp only [List.length_append, List.length_cons] at hlen
          simp only [List.length_cons] at hs
          omega
        rw [ih fs idx r hr hidx, hsound]

/-- A character other than `$` can never start a placeholder match. -/
theorem matchPH_none_of_head_ne {c : Char} (l : List Char) (hc : c ≠ '$') :
    matchPH (c :: l) = none := by
  have hb : (c == '$') = false := by simp [hc]
  simp [matchPH, mSeq, mEat, hb]

/-- A non-matching position copies one character of the text. -/
theorem insertAux_cons_none (fs : List PageFormula) (fuel idx : Nat)
    {c : Char} {l : List Char} (hm : matchPH (c :: l) = none) :
    insertAux fs (fuel + 1) idx (c :: l) = c :: insertAux fs fuel idx l := by
  simp only [insertAux, hm]

/-- The scan result does not depend on the fuel, as long as the fuel covers
the length of the scanned text. -/
theorem insertAux_fuel_irrelevant :
    ∀ (fuel fuel' : Nat) (fs : List PageFormula) (idx : Nat) (s : List Char),
      s.length ≤ fuel → s.length ≤ fuel' →
      insertAux fs fuel idx s = insertAux fs fuel' idx s := by
  intro fuel
  induction fuel with
  | zero =>
    intro fuel' fs idx s hs _
    have hnil : s = [] := List.eq_nil_of_length_eq_zero (Nat.le_zero.mp hs)
    subst hnil
    cases fuel' <;> rfl
  | succ n ih =>
    intro fuel' fs idx s hs hs'
    cases s with
    | nil => cases fuel' <;> rfl
    | cons c rest =>
      cases fuel' with
      | zero => exact absurd hs' (by simp)
      | succ m =>
        cases hm : matchPH (c :: rest) with
        | none =>
          rw [insertAux_cons_none fs n idx hm, insertAux_cons_none fs m idx hm]
          exact congrArg (c :: ·)
            (ih m fs idx rest (by simpa using Nat.le_of_succ_le_succ hs)
              (by simpa using Nat.le_of_succ_le_succ hs'))
        | some p =>
          obtain ⟨eaten, r⟩ := p
          simp only [insertAux, hm]
          have hsound := matchPH_sound _ eaten r hm
          have hne := matchPH_nonempty _ eaten r hm
          have hp : 0 < eaten.length := List.length_pos.mpr hne
          have hlen := congrArg List.length hsound
          simp only [List.length_append, List.length_cons] at hlen
          simp only [List.length_cons] at hs hs'
          have hr : r.length ≤ n := by omega
          have hr' : r.length ≤ m := by omega
          by_cases h : idx < fs.length
          · rw [dif_pos h, dif_pos h, ih m fs (idx + 1) r hr hr']
          · rw [dif_neg h, dif_neg h, ih m fs idx r hr hr']

/-- The scan copies a `$`-free gap verbatim and continues behind it with the
same formula counter. -/
theorem insertRun_gap :
    ∀ (g t : List Char) (fs : List PageFormula) (idx : Nat),
      (∀ c ∈ g, c ≠ '$') →
      insertRun fs idx (g ++ t) = g ++ insertRun fs idx t := by
  intro g
  induction g with
  | nil => intro t fs idx _; rfl
  | cons c g2 ih =>
    intro t fs idx hg
    have hc : c ≠ '$' := hg c (by simp)
    have hm := matchPH_none_of_head_ne (g2 ++ t) hc
    show insertAux fs ((g2 ++ t).length + 1) idx (c :: (g2 ++ t)) =
      (c :: g2) ++ insertRun fs idx t
    rw [insertAux_cons_none fs ((g2 ++ t).length) idx hm]
    show c :: insertRun fs idx (g2 ++ t) = (c :: g2) ++ insertRun fs idx t
    rw [ih t fs idx (fun d hd => hg d (List.mem_cons_of_mem _ hd))]
    rfl

/-- At an exactly-matching placeholder the scan substitutes the display block
of the current formula and advances the counter, or — once the formulas are
exhausted — emits the placeholder verbatim with the counter unchanged. -/
theorem insertRun_placeholder (fs : List PageFormula) (idx : Nat) (P t : List Char)
    (hP : matchPH (P ++ t) = some (P, t)) :
    insertRun fs idx (P ++ t) =
      if h : idx < fs.length then
        "\n$$\n".data ++ (fs.get ⟨idx, h⟩).latex.data ++ "\n$$\n".data ++
          insertRun fs (idx + 1) t
      else P ++ insertRun fs idx t := by
  have hne : P ≠ [] := matchPH_nonempty _ P t hP
  cases P with
  | nil => exact absurd rfl hne
  | cons c P2 =>
    simp only [List.cons_append] at hP
    show insertAux fs ((P2 ++ t).length + 1) idx (c :: (P2 ++ t)) = _
    simp only [insertAux, hP]
    have hle : t.length ≤ (P2 ++ t).length := by
      rw [List.length_append]; omega
    by_cases h : idx < fs.length
    · rw [dif_pos h, dif_pos h,
        insertAux_fuel_irrelevant ((P2 ++ t).length) t.length fs (idx + 1) t hle le_rfl]
      rfl
    · rw [dif_neg h, dif_neg h,
        insertAux_fuel_irrelevant ((P2 ++ t).length) t.length fs idx t hle le_rfl]
      rfl

/-- The general pairing invariant of the stateful `re.sub` scan over an
assembled gap/placeholder text, for an arbitrary starting counter. -/
theorem insertRun_assemble (fs : List PageFormula) :
    ∀ (segs : List (List Char × List Char)) (glast : List Char) (idx : Nat),
      (∀ gp ∈ segs, (∀ c ∈ gp.1, c ≠ '$') ∧
        (∀ rest, matchPH (gp.2 ++ rest) = some (gp.2, rest))) →
      (∀ c ∈ glast, c ≠ '$') →
      insertRun fs idx (assembleText segs glast) = expected fs idx segs glast := by
  intro segs
  induction segs with
  | nil =>
    intro glast idx _ hlast
    show insertRun fs idx glast = glast
    have h1 := insertRun_gap glast [] fs idx hlast
    rw [List.append_nil] at h1
    rw [h1]
    rw [show insertRun fs idx ([] : List Char) = [] from rfl, List.append_nil]
  | cons gp rest ih =>
    intro glast idx hsegs hlast
    obtain ⟨g, P⟩ := gp
    obtain ⟨hg, hP⟩ := hsegs (g, P) (by simp)
    have hrest := fun gp hgp => hsegs gp (List.mem_cons_of_mem _ hgp)
    show insertRun fs idx (g ++ (P ++ assembleText rest glast)) = _
    rw [insertRun_gap g _ fs idx hg,
      insertRun_placeholder fs idx P _ (hP (assembleText rest glast))]
    show _ = expected fs idx ((g, P) :: rest) glast
    by_cases h : idx < fs.length
    · rw [dif_pos h, ih glast (idx + 1) hrest hlast]
      simp only [expected]
      rw [dif_pos h]
    · rw [dif_neg h, ih glast idx hrest hlast]
      simp only [expected]
      rw [dif_neg h]

/-- C10.  Placeholder fallback safety: over any text assembled from `$`-free
gaps and exactly-matching placeholders, with any formula list, the i-th
matching placeholder (i = 0, 1, …) is replaced by `"\n$$\n" ++ latex of the
i-th extracted formula ++ "\n$$\n"` while formulas remain, and every
placeholder beyond the formula count is left verbatim in the output; with an
empty formula list any text whatsoever is returned unchanged; the function is
total, so a count mismatch never raises.  A concrete two-placeholder,
one-formula instance is included. -/
theorem claim10_placeholder_fallback :
    (∀ (segs : List (List Char × List Char)) (glast : List Char)
       (fs : List PageFormula),
       (∀ gp ∈ segs, (∀ c ∈ gp.1, c ≠ '$') ∧
         (∀ rest, matchPH (gp.2 ++ rest) = some (gp.2, rest))) →
       (∀ c ∈ glast, c ≠ '$') →
       insert_formulas_into_markdown (String.mk (assembleText segs glast)) fs =
         String.mk (expected fs 0 segs glast)) ∧
    (∀ markdown : String, insert_formulas_into_markdown markdown [] = markdown) ∧
    insert_formulas_into_markdown "Intro $$(Formule 2.3)$$ mid $$(Formule 2.4)$$ end"
      [⟨"E=mc^2", "", 1⟩] = "Intro \n$$\nE=mc^2\n$$\n mid $$(Formule 2.4)$$ end" := by
  refine ⟨?_, ?_, by decide⟩
  · intro segs glast fs h1 h2
    exact congrArg String.mk (insertRun_assemble fs segs glast 0 h1 h2)
  · intro markdown
    show String.mk _ = _
    rw [insertAux_skip _ _ _ _ le_rfl (by simp)]

theorem claim10_witness :
    insert_formulas_into_markdown
      (String.mk (assembleText [("x ".data, "$$(Formule 1.2)$$".data)] " y".data))
      [⟨"a+b", "", 1⟩] =
    String.mk (expected [⟨"a+b", "", 1⟩] 0
      [("x ".data, "$$(Formule 1.2)$$".data)] " y".data) := by
  apply claim10_placeholder_fallback.1
  · intro gp hgp
    simp only [List.mem_singleton] at hgp
    subst hgp
    exact ⟨by decide, fun _rest => rfl⟩
  · decide

end RagFormulas
